import Mathlib

/-!
Verification of the node-subdata-2 framing core.

Shallow embedding of:
- `src/lib/sizeHelpers` (`bytes`, `kb`, `mb`);
- `src/stream/controlCharacters.ts` (the `ControlCharacters` enumeration);
- `DirectStream` (the Layer 1 framing codec: `feed`, `_handleNewData`,
  `_emitRead`, `_emitPacket`, `_readReset`, `_shiftBuffer`,
  `_bestControlCharacter`, `_calculateControlCharacterRemainder`, `encode`);
- `src/Packet.ts` (`Packet`: constructor, `toRaw`, `fromID`);
- `src/shell/index.ts` (`Shell.send`), `Stream.writePacket` and
  `src/shell/algorithms/Raw.ts` (`RawShellAlgorithm`).

Buffers are `List Nat` of byte values; the event-emitter style of the source
is modelled by returning the list of emitted events from each call, and a
thrown `Error` is modelled by an `Option DSError` component carrying the
object state at the moment of the throw (mutations made before the throw
persist on the JS object).
-/

namespace NodeSubdata2

/-- Models `sizeHelpers.bytes`: returns the size unchanged. -/
def bytes (size : Nat) : Nat := size

/-- Models `sizeHelpers.kb`: kilobytes to bytes. -/
def kb (size : Nat) : Nat := size * 1024

/-- Models `sizeHelpers.mb`: megabytes to bytes. -/
def mb (size : Nat) : Nat := kb size * 1024

/-- Models `Number.MAX_SAFE_INTEGER`. -/
def maxSafeInteger : Nat := 2 ^ 53 - 1

namespace ControlCharacters

/-- Control character `KeepAlive` (0x00). -/
def KeepAlive : Nat := 0x00
/-- Control character `ReadByte` (0x10). -/
def ReadByte : Nat := 0x10
/-- Control character `ReadBytes` (0x11). -/
def ReadBytes : Nat := 0x11
/-- Control character `ReadKB` (0x12). -/
def ReadKB : Nat := 0x12
/-- Control character `ReadMB` (0x13). -/
def ReadMB : Nat := 0x13
/-- Control character `ReadGB` (0x14). -/
def ReadGB : Nat := 0x14
/-- Control character `ReadTB` (0x15). -/
def ReadTB : Nat := 0x15
/-- Control character `ReadPB` (0x16). -/
def ReadPB : Nat := 0x16
/-- Control character `EndOfPacket` (0x17). -/
def EndOfPacket : Nat := 0x17
/-- Control character `ReadReset` (0x18). -/
def ReadReset : Nat := 0x18

end ControlCharacters

/-- The value set of the `ControlCharacters` enumeration.  The source guard
`char.toString() in ControlCharacters` tests membership of the byte in the
reverse mapping of the TypeScript numeric enum, i.e. exactly this set. -/
def controlCharacterValues : List Nat :=
  [ControlCharacters.KeepAlive, ControlCharacters.ReadByte,
   ControlCharacters.ReadBytes, ControlCharacters.ReadKB,
   ControlCharacters.ReadMB, ControlCharacters.ReadGB,
   ControlCharacters.ReadTB, ControlCharacters.ReadPB,
   ControlCharacters.EndOfPacket, ControlCharacters.ReadReset]

/-- Events emitted by `DirectStream` (`DirectStreamEvents` plus their
arguments, see `DirectStreamEventArguments`).  The `Read` event carries a
plain number for `ReadByte` and a buffer for the sized reads, so it is split
into two constructors here. -/
inductive DSEvent where
  /-- `Read` event fired as `(ControlCharacters.ReadByte, 1, number)`. -/
  | readByte (value : Nat)
  /-- `Read` event fired as `(controlCharacter, numberOfType, buffer)`. -/
  | read (controlCharacter : Nat) (numberOfType : Nat) (data : List Nat)
  /-- `Packet` event fired as `(size, data)`. -/
  | packet (size : Nat) (data : List Nat)
  /-- `ReadReset` event (no arguments). -/
  | reset
deriving DecidableEq, Repr

/-- The distinct `Error` values thrown by `DirectStream`. -/
inductive DSError where
  /-- The malformed-control-byte error: "I don't know what I am looking at!". -/
  | unknownControlCharacter (value : Nat)
  /-- "Internal error: ReadGB, ReadTB, and ReadPB are not yet implemented.". -/
  | notImplemented
  /-- "Packet size exceeded or got very close to maximum safe integer.". -/
  | packetSizeOverflow
  /-- The unreachable default branch of the `switch` ("Internal bug"). -/
  | internalBug
deriving DecidableEq, Repr

/-- The mutable state of a `DirectStream`: `_buffer`, `_packet` and
`_packetSize`.  The source field `_bufferSize` is kept equal to
`_buffer.length` at every assignment, so it is represented by
`buffer.length`. -/
structure DirectStream where
  buffer : List Nat
  packet : List Nat
  packetSize : Nat
deriving DecidableEq, Repr

/-- The state built by the `DirectStream` constructor: everything empty. -/
def DirectStream.fresh : DirectStream := { buffer := [], packet := [], packetSize := 0 }

/-- Result of one iteration of `_handleNewData` on the head of the buffer. -/
inductive StepResult where
  /-- An early `return`: empty buffer or not enough buffered bytes yet. -/
  | stop
  /-- A thrown `Error`, with the object state at the moment of the throw. -/
  | error (state : DirectStream) (e : DSError)
  /-- A consumed control sequence: successor state and emitted events. -/
  | next (state : DirectStream) (events : List DSEvent)
deriving DecidableEq, Repr

/-- Models one `ReadBytes`/`ReadKB`/`ReadMB` branch of the `switch` inside
`_handleNewData`: `s.buffer = c :: n :: rest2` with `byteSize` already
computed from `n`.  Checks the two-byte and full-chunk length guards, then
performs `_emitRead` (packet concatenation, size increment, overflow guard,
`Read` event) and `_shiftBuffer (byteSize + 2)`. -/
def sizedReadStep (s : DirectStream) (controlCharacter byteSize n : Nat)
    (rest2 : List Nat) : StepResult :=
  if s.buffer.length < byteSize + 2 then .stop
  else
    let data := rest2.take byteSize
    let packet1 := s.packet ++ data
    let packetSize1 := s.packetSize + byteSize
    if maxSafeInteger - 1000 ≤ packetSize1 then
      .error { buffer := s.buffer, packet := [], packetSize := 0 } .packetSizeOverflow
    else
      .next { buffer := rest2.drop byteSize, packet := packet1, packetSize := packetSize1 }
        [.read controlCharacter n data]

/-- Models one pass of `_handleNewData` over the head of `_buffer` (without
the trailing self-call, which is `handleLoop` below).  Mirrors, in order: the
empty-buffer early return, the unknown-control-character guard, and each
`case` of the `switch`.  The `ReadReset` case clears the buffer and packet,
emits `ReadReset`, and re-feeds the bytes that followed the reset byte, which
is exactly a `next` to state `(postReset, [], 0)`. -/
def handleStep (s : DirectStream) : StepResult :=
  match s.buffer with
  | [] => .stop
  | c :: rest =>
    if controlCharacterValues.contains c = false then
      .error s (.unknownControlCharacter c)
    else if c = ControlCharacters.ReadReset then
      .next { buffer := rest, packet := [], packetSize := 0 } [.reset]
    else if c = ControlCharacters.ReadByte then
      match rest with
      | [] => .stop
      | b :: rest2 =>
        let packet1 := s.packet ++ [b]
        let packetSize1 := s.packetSize + 1
        if maxSafeInteger - 1000 ≤ packetSize1 then
          .error { buffer := s.buffer, packet := [], packetSize := 0 } .packetSizeOverflow
        else
          .next { buffer := rest2, packet := packet1, packetSize := packetSize1 }
            [.readByte b]
    else if c = ControlCharacters.ReadBytes then
      match rest with
      | [] => .stop
      | n :: rest2 => sizedReadStep s ControlCharacters.ReadBytes ((n + 1) * 4) n rest2
    else if c = ControlCharacters.ReadKB then
      match rest with
      | [] => .stop
      | n :: rest2 => sizedReadStep s ControlCharacters.ReadKB (kb (n + 1) * 4) n rest2
    else if c = ControlCharacters.ReadMB then
      match rest with
      | [] => .stop
      | n :: rest2 => sizedReadStep s ControlCharacters.ReadMB (mb (n + 1) * 4) n rest2
    else if c = ControlCharacters.ReadGB ∨ c = ControlCharacters.ReadTB
        ∨ c = ControlCharacters.ReadPB then
      .error s .notImplemented
    else if c = ControlCharacters.KeepAlive then
      .next { buffer := rest, packet := s.packet, packetSize := s.packetSize } []
    else if c = ControlCharacters.EndOfPacket then
      .next { buffer := rest, packet := [], packetSize := 0 }
        [.packet s.packetSize s.packet]
    else
      .error s .internalBug

/-- The iteration of `_handleNewData`: process head control sequences until an
early return or a throw.  Every `next` step strictly shrinks the buffer, so
fuel equal to the buffer length (as used by `handleNewData`) always
suffices. -/
def handleLoop : Nat → DirectStream → DirectStream × List DSEvent × Option DSError
  | 0, s => (s, [], none)
  | fuel + 1, s =>
    match handleStep s with
    | .stop => (s, [], none)
    | .error s1 e => (s1, [], some e)
    | .next s1 events =>
      let r := handleLoop fuel s1
      (r.1, events ++ r.2.1, r.2.2)

/-- Models a call to `_handleNewData`: loop over the buffer head. -/
def handleNewData (s : DirectStream) : DirectStream × List DSEvent × Option DSError :=
  handleLoop s.buffer.length s

/-- The state after appending `data` to the buffer (the first two lines of
`feed`). -/
def appendState (s : DirectStream) (data : List Nat) : DirectStream :=
  { buffer := s.buffer ++ data, packet := s.packet, packetSize := s.packetSize }

/-- Models `DirectStream.feed`: concatenate the new data onto `_buffer`,
bump `_bufferSize`, and run `_handleNewData`. -/
def feed (s : DirectStream) (data : List Nat) : DirectStream × List DSEvent × Option DSError :=
  handleNewData (appendState s data)

/-- Feed a list of chunks in order, stopping at the first thrown error (a
fatal decode error ends the ability of the connection to make progress). -/
def feedAll (s : DirectStream) : List (List Nat) → DirectStream × List DSEvent × Option DSError
  | [] => (s, [], none)
  | d :: ds =>
    let r := feed s d
    match r.2.2 with
    | some e => (r.1, r.2.1, some e)
    | none =>
      let r2 := feedAll r.1 ds
      (r2.1, r.2.1 ++ r2.2.1, r2.2.2)

/-- Result of `_bestControlCharacter`, apart from the `false` case.  The
`ReadByte` alternative carries `number = -1` in the source; the field is
dropped here because the constructor already identifies that alternative. -/
inductive BestCC where
  | readByte (remainder : Nat)
  | sized (controlCharacter number remainder : Nat)
deriving DecidableEq, Repr

/-- Models `_calculateControlCharacterRemainder`. -/
def calculateControlCharacterRemainder (controlCharacter size : Nat)
    (sizeFn : Nat → Nat) : BestCC :=
  .sized controlCharacter (min 255 (size / sizeFn 4 - 1))
    (size - sizeFn 4 * (min 255 (size / sizeFn 4 - 1) + 1))

/-- Models `_bestControlCharacter` (`none` is the `false` return). -/
def bestControlCharacter (size : Nat) : Option BestCC :=
  if size < 1 then none
  else if size < 4 then some (.readByte (size - 1))
  else if size < kb 4 then
    some (calculateControlCharacterRemainder ControlCharacters.ReadBytes size bytes)
  else if size < mb 4 then
    some (calculateControlCharacterRemainder ControlCharacters.ReadKB size kb)
  else
    some (calculateControlCharacterRemainder ControlCharacters.ReadMB size mb)

/-- The inner `switch (controlCharacter)` of the encode loop computing
`byteSize` for a sized control character. -/
def encodeByteSize (cc number : Nat) : Nat :=
  if cc = ControlCharacters.ReadBytes then (number + 1) * 4
  else if cc = ControlCharacters.ReadKB then kb (number + 1) * 4
  else mb (number + 1) * 4

/-- The `while (remaining > 0)` loop of `DirectStream.encode`, with the
`results` array already flattened into the output list.  The loop consumes at
least one byte per iteration, so fuel equal to the input length (as used by
`DirectStream.encode`) always suffices; the `none` branch is unreachable
because `remaining ≥ 1` there (the source throws "This should never
happen"). -/
def encodeGo : Nat → List Nat → Nat → Nat → List Nat
  | 0, _, _, _ => []
  | fuel + 1, input, size, remaining =>
    if remaining = 0 then []
    else
      match bestControlCharacter remaining with
      | none => []
      | some (.readByte _) =>
        ControlCharacters.ReadByte ::
          ((input.drop (size - remaining)).take 1 ++ encodeGo fuel input size (remaining - 1))
      | some (.sized cc number _) =>
        cc :: number ::
          ((input.drop (size - remaining)).take (encodeByteSize cc number) ++
            encodeGo fuel input size (remaining - encodeByteSize cc number))

/-- Models `DirectStream.encode`. -/
def DirectStream.encode (input : List Nat) : List Nat :=
  encodeGo input.length input input.length input.length

/-- Modelled from the spec (section 4.1, claim C3): the greedy chunking
algorithm written exactly as the spec states it, to be compared with
`DirectStream.encode`.  While at least 4 bytes remain, pick the unit by the
magnitude of `remaining`, emit control byte, `count = min 255 (remaining /
unit - 1)`, then `(count + 1) * unit` payload bytes; 1 to 3 leftover bytes
each become their own 2-byte `ReadByte` chunk; the empty buffer encodes to
the empty buffer. -/
def encodeSpecGo : Nat → List Nat → List Nat
  | _, [] => []
  | 0, _ :: _ => []
  | fuel + 1, b :: rest =>
    let remaining := rest.length + 1
    if remaining < 4 then
      ControlCharacters.ReadByte :: b :: encodeSpecGo fuel rest
    else
      let unit := if remaining < 4096 then 4
        else if remaining < 4194304 then 4096 else 4194304
      let cc := if remaining < 4096 then ControlCharacters.ReadBytes
        else if remaining < 4194304 then ControlCharacters.ReadKB
        else ControlCharacters.ReadMB
      let count := min 255 (remaining / unit - 1)
      let chunk := (count + 1) * unit
      cc :: count ::
        ((b :: rest).take chunk ++ encodeSpecGo fuel ((b :: rest).drop chunk))

/-- Modelled from the spec: wrapper for `encodeSpecGo`. -/
def encodeSpec (input : List Nat) : List Nat := encodeSpecGo input.length input

/-- The sequence of `Read` events produced when the output of the encoder is
decoded: one event per encoded chunk, mirroring the recursion of
`encodeSpecGo`. -/
def readEventsGo : Nat → List Nat → List DSEvent
  | _, [] => []
  | 0, _ :: _ => []
  | fuel + 1, b :: rest =>
    let remaining := rest.length + 1
    if remaining < 4 then
      DSEvent.readByte b :: readEventsGo fuel rest
    else
      let unit := if remaining < 4096 then 4
        else if remaining < 4194304 then 4096 else 4194304
      let cc := if remaining < 4096 then ControlCharacters.ReadBytes
        else if remaining < 4194304 then ControlCharacters.ReadKB
        else ControlCharacters.ReadMB
      let count := min 255 (remaining / unit - 1)
      let chunk := (count + 1) * unit
      DSEvent.read cc count ((b :: rest).take chunk) ::
        readEventsGo fuel ((b :: rest).drop chunk)

/-- Wrapper for `readEventsGo`. -/
def readEvents (input : List Nat) : List DSEvent := readEventsGo input.length input

/-- Extracts the `(size, data)` argument pair of a `Packet` event. -/
def packetEvent : DSEvent → Option (Nat × List Nat)
  | .packet size data => some (size, data)
  | _ => none

/-- Models `parseInt(raw.subarray(0, 2).toString("hex"), 16)`: the empty hex
string parses to `NaN` (modelled `none`), otherwise the bytes are read
big-endian. -/
def parseIdHex (bs : List Nat) : Option Nat :=
  if bs.isEmpty then none else some (bs.foldl (fun a b => a * 256 + b) 0)

/-- Models `src/Packet.ts`: an id (possibly `NaN`) and the remaining data. -/
structure Packet where
  id : Option Nat
  data : List Nat
deriving DecidableEq, Repr

/-- Models the `Packet` constructor (`fromRaw` in the spec): the first two
bytes parsed as hex become the id, the rest becomes the data.  No length
check is performed by the source. -/
def Packet.ofRaw (raw : List Nat) : Packet :=
  { id := parseIdHex (raw.take 2), data := raw.drop 2 }

/-- Models `Packet.toRaw`: `Buffer.concat([Buffer.from([id >> 8, id & 0xff]),
data])`.  A `NaN` id produces `[0, 0]` because bitwise operators coerce `NaN`
to `0`; `Buffer.from` reduces each entry modulo 256. -/
def Packet.toRaw (p : Packet) : List Nat :=
  (match p.id with
   | none => [0, 0]
   | some i => [i / 256 % 256, i % 256]) ++ p.data

/-- Models `Packet.fromID`. -/
def Packet.fromID (id : Nat) (data : List Nat) : Packet :=
  Packet.ofRaw ([id / 256 % 256, id % 256] ++ data)

/-- Models `RawShellAlgorithm.encode`: the identity. -/
def RawShellAlgorithm.encode (data : List Nat) : List Nat := data

/-- Models `RawShellAlgorithm.decode`: the identity. -/
def RawShellAlgorithm.decode (packet : List Nat) : List Nat := packet

/-- The `Stream` class carries a copy of the same encode pipeline
(`_bestControlCharacter`, `_calculateControlCharacterRemainder`, `encode`)
with identical bodies, so its `encode` is embedded by the same function. -/
def Stream.encode (input : List Nat) : List Nat := DirectStream.encode input

/-- Models `Stream.writePacket` as the list of buffers passed to the
transport: a single `writeTo` call carrying
`Buffer.concat([this.encode(data), Buffer.from([ControlCharacters.EndOfPacket])])`. -/
def Stream.writePacketWrites (data : List Nat) : List (List Nat) :=
  [Stream.encode data ++ [ControlCharacters.EndOfPacket]]

/-- Models `Shell.send` as the list of transport writes it causes:
`this._stream.writePacket(this._algorithm.encode(data))`. -/
def Shell.sendWrites (algorithmEncode : List Nat → List Nat)
    (data : List Nat) : List (List Nat) :=
  Stream.writePacketWrites (algorithmEncode data)

/-- The data a `Read` event contributes to the packet being assembled. -/
def applyEvent (acc : List Nat) (e : DSEvent) : List Nat :=
  match e with
  | .readByte b => acc ++ [b]
  | .read _ _ data => acc ++ data
  | .packet _ _ => []
  | .reset => []

/-- Folds `applyEvent` over a list of events. -/
def applyEvents (acc : List Nat) (events : List DSEvent) : List Nat :=
  events.foldl applyEvent acc

/-- Checks, along an event trace, that every `Packet` event carries exactly
the concatenation of the data of the `Read` events emitted since the most
recent `Packet` or `ReadReset` event (or since construction), together with
its length as the size argument.  `acc` is the payload accumulated so far. -/
def checkEvents (acc : List Nat) : List DSEvent → Bool
  | [] => true
  | e :: es =>
    match e with
    | .packet size data => (decide (data = acc) && decide (size = acc.length)) && checkEvents [] es
    | _ => checkEvents (applyEvent acc e) es

end NodeSubdata2

namespace NodeSubdata2

/-! ### Basic facts about single decode steps -/

theorem handleStep_nil (p : List Nat) (n : Nat) :
    handleStep { buffer := [], packet := p, packetSize := n } = .stop := rfl

theorem handleStep_empty {s : DirectStream} (h : s.buffer = []) : handleStep s = .stop := by
  obtain ⟨buf, p, n⟩ := s
  cases h
  rfl

theorem handleStep_reset (rest p : List Nat) (n : Nat) :
    handleStep { buffer := ControlCharacters.ReadReset :: rest, packet := p, packetSize := n } =
      .next { buffer := rest, packet := [], packetSize := 0 } [.reset] := rfl

theorem handleStep_keepAlive (rest p : List Nat) (n : Nat) :
    handleStep { buffer := ControlCharacters.KeepAlive :: rest, packet := p, packetSize := n } =
      .next { buffer := rest, packet := p, packetSize := n } [] := rfl

theorem handleStep_endOfPacket (rest p : List Nat) (n : Nat) :
    handleStep { buffer := ControlCharacters.EndOfPacket :: rest, packet := p, packetSize := n } =
      .next { buffer := rest, packet := [], packetSize := 0 } [.packet n p] := rfl

theorem handleStep_readByte_if (b : Nat) (rest2 p : List Nat) (n : Nat) :
    handleStep { buffer := ControlCharacters.ReadByte :: b :: rest2, packet := p, packetSize := n } =
      if maxSafeInteger - 1000 ≤ n + 1 then
        .error { buffer := ControlCharacters.ReadByte :: b :: rest2, packet := [], packetSize := 0 }
          .packetSizeOverflow
      else
        .next { buffer := rest2, packet := p ++ [b], packetSize := n + 1 } [.readByte b] := rfl

theorem handleStep_readByte (b : Nat) (rest2 p : List Nat) (n : Nat)
    (h : n + 1 < maxSafeInteger - 1000) :
    handleStep { buffer := ControlCharacters.ReadByte :: b :: rest2, packet := p, packetSize := n } =
      .next { buffer := rest2, packet := p ++ [b], packetSize := n + 1 } [.readByte b] := by
  rw [handleStep_readByte_if, if_neg (by omega)]

theorem handleStep_readBytes (nn : Nat) (rest2 p : List Nat) (n : Nat) :
    handleStep { buffer := ControlCharacters.ReadBytes :: nn :: rest2, packet := p, packetSize := n } =
      sizedReadStep { buffer := ControlCharacters.ReadBytes :: nn :: rest2, packet := p, packetSize := n }
        ControlCharacters.ReadBytes ((nn + 1) * 4) nn rest2 := rfl

theorem handleStep_readKB (nn : Nat) (rest2 p : List Nat) (n : Nat) :
    handleStep { buffer := ControlCharacters.ReadKB :: nn :: rest2, packet := p, packetSize := n } =
      sizedReadStep { buffer := ControlCharacters.ReadKB :: nn :: rest2, packet := p, packetSize := n }
        ControlCharacters.ReadKB (kb (nn + 1) * 4) nn rest2 := rfl

theorem handleStep_readMB (nn : Nat) (rest2 p : List Nat) (n : Nat) :
    handleStep { buffer := ControlCharacters.ReadMB :: nn :: rest2, packet := p, packetSize := n } =
      sizedReadStep { buffer := ControlCharacters.ReadMB :: nn :: rest2, packet := p, packetSize := n }
        ControlCharacters.ReadMB (mb (nn + 1) * 4) nn rest2 := rfl

theorem sizedReadStep_next (s : DirectStream) (cc byteSize nn : Nat) (rest2 : List Nat)
    (h1 : byteSize + 2 ≤ s.buffer.length) (h2 : s.packetSize + byteSize < maxSafeInteger - 1000) :
    sizedReadStep s cc byteSize nn rest2 =
      .next { buffer := rest2.drop byteSize, packet := s.packet ++ rest2.take byteSize,
              packetSize := s.packetSize + byteSize } [.read cc nn (rest2.take byteSize)] := by
  unfold sizedReadStep
  rw [if_neg (by omega), if_neg (by omega)]

theorem handleStep_unknown (c : Nat) (rest p : List Nat) (n : Nat)
    (h : controlCharacterValues.contains c = false) :
    handleStep { buffer := c :: rest, packet := p, packetSize := n } =
      .error { buffer := c :: rest, packet := p, packetSize := n }
        (.unknownControlCharacter c) := by
  simp only [handleStep]
  rw [if_pos h]

theorem handleLoop_zero (s : DirectStream) : handleLoop 0 s = (s, [], none) := rfl

theorem handleLoop_succ (fuel : Nat) (s : DirectStream) :
    handleLoop (fuel + 1) s =
      match handleStep s with
      | .stop => (s, [], none)
      | .error s1 e => (s1, [], some e)
      | .next s1 events =>
        let r := handleLoop fuel s1
        (r.1, events ++ r.2.1, r.2.2) := rfl

/-- Every successful decode step strictly shrinks the buffer. -/
theorem handleStep_next_length {s s1 : DirectStream} {evts : List DSEvent}
    (h : handleStep s = .next s1 evts) : s1.buffer.length < s.buffer.length := by
  obtain ⟨buf, p, n⟩ := s
  cases buf with
  | nil => simp [handleStep] at h
  | cons c rest =>
    simp only [handleStep] at h
    split at h
    · cases h
    split at h
    · cases h
      simp
    split at h
    · split at h
      · cases h
      split at h
      · cases h
      cases h
      simp
      omega
    split at h
    · split at h
      · cases h
      simp only [sizedReadStep] at h
      split at h
      · cases h
      split at h
      · cases h
      cases h
      simp
      omega
    split at h
    · split at h
      · cases h
      simp only [sizedReadStep] at h
      split at h
      · cases h
      split at h
      · cases h
      cases h
      simp
      omega
    split at h
    · split at h
      · cases h
      simp only [sizedReadStep] at h
      split at h
      · cases h
      split at h
      · cases h
      cases h
      simp
      omega
    split at h
    · cases h
    split at h
    · cases h
      simp
    split at h
    · cases h
      simp
    cases h

end NodeSubdata2


namespace NodeSubdata2

/-! ### More step shape lemmas -/

theorem handleStep_readByte_short (p : List Nat) (n : Nat) :
    handleStep { buffer := [ControlCharacters.ReadByte], packet := p, packetSize := n } = .stop := rfl

theorem handleStep_readBytes_short (p : List Nat) (n : Nat) :
    handleStep { buffer := [ControlCharacters.ReadBytes], packet := p, packetSize := n } = .stop := rfl

theorem handleStep_readKB_short (p : List Nat) (n : Nat) :
    handleStep { buffer := [ControlCharacters.ReadKB], packet := p, packetSize := n } = .stop := rfl

theorem handleStep_readMB_short (p : List Nat) (n : Nat) :
    handleStep { buffer := [ControlCharacters.ReadMB], packet := p, packetSize := n } = .stop := rfl

theorem handleStep_readGB (rest p : List Nat) (n : Nat) :
    handleStep { buffer := ControlCharacters.ReadGB :: rest, packet := p, packetSize := n } =
      .error { buffer := ControlCharacters.ReadGB :: rest, packet := p, packetSize := n }
        .notImplemented := rfl

theorem handleStep_readTB (rest p : List Nat) (n : Nat) :
    handleStep { buffer := ControlCharacters.ReadTB :: rest, packet := p, packetSize := n } =
      .error { buffer := ControlCharacters.ReadTB :: rest, packet := p, packetSize := n }
        .notImplemented := rfl

theorem handleStep_readPB (rest p : List Nat) (n : Nat) :
    handleStep { buffer := ControlCharacters.ReadPB :: rest, packet := p, packetSize := n } =
      .error { buffer := ControlCharacters.ReadPB :: rest, packet := p, packetSize := n }
        .notImplemented := rfl

/-! ### Fuel irrelevance and loop facts -/

/-- Any fuel at least the buffer length gives the same loop result: each
`next` step strictly shrinks the buffer, so the loop always halts before
either fuel bound runs out. -/
theorem handleLoop_congr : ∀ (f1 : Nat) {f2 : Nat} (s : DirectStream),
    s.buffer.length ≤ f1 → s.buffer.length ≤ f2 → handleLoop f1 s = handleLoop f2 s := by
  intro f1
  induction f1 with
  | zero =>
    intro f2 s h1 h2
    have hbuf : s.buffer = [] := List.length_eq_zero.mp (Nat.le_zero.mp h1)
    cases f2 with
    | zero => rfl
    | succ g => rw [handleLoop_zero, handleLoop_succ, handleStep_empty hbuf]
  | succ f ih =>
    intro f2 s h1 h2
    cases f2 with
    | zero =>
      have hbuf : s.buffer = [] := List.length_eq_zero.mp (Nat.le_zero.mp h2)
      rw [handleLoop_zero, handleLoop_succ, handleStep_empty hbuf]
    | succ g =>
      rw [handleLoop_succ, handleLoop_succ]
      cases hs : handleStep s with
      | stop => rfl
      | error s1 e => rfl
      | next s1 evts =>
        have hlt := handleStep_next_length hs
        have h3 := ih s1 (show s1.buffer.length ≤ f by omega)
          (show s1.buffer.length ≤ g by omega)
        simp [h3]

theorem handleLoop_eq_handleNewData (f : Nat) (s : DirectStream)
    (h : s.buffer.length ≤ f) : handleLoop f s = handleNewData s :=
  handleLoop_congr f s h le_rfl

/-- Unfolding `handleNewData` when the head makes no progress. -/
theorem handleNewData_stop {s : DirectStream} (hs : handleStep s = .stop) :
    handleNewData s = (s, [], none) := by
  cases hb : s.buffer with
  | nil => simp [handleNewData, hb, handleLoop_zero]
  | cons x xs =>
    have : s.buffer.length = xs.length + 1 := by rw [hb]; rfl
    rw [handleNewData, this, handleLoop_succ, hs]

/-- Unfolding `handleNewData` when the head throws. -/
theorem handleNewData_error {s s1 : DirectStream} {e : DSError}
    (hs : handleStep s = .error s1 e) :
    handleNewData s = (s1, [], some e) := by
  cases hb : s.buffer with
  | nil =>
    rw [handleStep_empty hb] at hs
    cases hs
  | cons x xs =>
    have : s.buffer.length = xs.length + 1 := by rw [hb]; rfl
    rw [handleNewData, this, handleLoop_succ, hs]

/-- Unfolding `handleNewData` when the head makes progress. -/
theorem handleNewData_next {s s2 : DirectStream} {evts : List DSEvent}
    (hs : handleStep s = .next s2 evts) :
    handleNewData s =
      ((handleNewData s2).1, evts ++ (handleNewData s2).2.1, (handleNewData s2).2.2) := by
  have hlt := handleStep_next_length hs
  cases hb : s.buffer with
  | nil =>
    rw [handleStep_empty hb] at hs
    cases hs
  | cons x xs =>
    have hlen : s.buffer.length = xs.length + 1 := by rw [hb]; rfl
    rw [handleNewData, hlen, handleLoop_succ]
    simp only [hs]
    rw [handleLoop_eq_handleNewData xs.length s2 (by omega)]

/-- A loop that returns without an error stops in a state whose head cannot
make progress (either the buffer is empty or more bytes are awaited). -/
theorem handleLoop_ok_stable : ∀ (f : Nat) {s s1 : DirectStream} {evts : List DSEvent},
    handleLoop f s = (s1, evts, none) → s.buffer.length ≤ f → handleStep s1 = .stop := by
  intro f
  induction f with
  | zero =>
    intro s s1 evts h hf
    have hbuf : s.buffer = [] := List.length_eq_zero.mp (Nat.le_zero.mp hf)
    rw [handleLoop_zero] at h
    cases h
    exact handleStep_empty hbuf
  | succ f ih =>
    intro s s1 evts h hf
    rw [handleLoop_succ] at h
    cases hs : handleStep s with
    | stop =>
      rw [hs] at h
      cases h
      exact hs
    | error s2 e =>
      rw [hs] at h
      cases h
    | next s2 evts2 =>
      simp only [hs] at h
      have hlt := handleStep_next_length hs
      rcases hr : handleLoop f s2 with ⟨a, bb, cc⟩
      rw [hr] at h
      simp only [Prod.mk.injEq] at h
      obtain ⟨ha, hb, hc⟩ := h
      subst ha
      subst hc
      exact ih hr (by omega)

end NodeSubdata2

namespace NodeSubdata2

/-! ### Appending pending data to the rear of the buffer -/

theorem sizedReadStep_append_next (x cc bs nn : Nat) (rest2 p d : List Nat) (n : Nat)
    {s1 : DirectStream} {evts : List DSEvent}
    (h : sizedReadStep { buffer := x :: nn :: rest2, packet := p, packetSize := n }
        cc bs nn rest2 = .next s1 evts) :
    sizedReadStep { buffer := x :: nn :: (rest2 ++ d), packet := p, packetSize := n }
        cc bs nn (rest2 ++ d) = .next (appendState s1 d) evts := by
  simp only [sizedReadStep, List.length_cons, List.length_append] at h ⊢
  split at h
  · cases h
  next hlen =>
  rw [if_neg (by omega)]
  split at h
  · cases h
  next hguard =>
  rw [if_neg hguard]
  cases h
  rw [List.take_append_of_le_length (by omega), List.drop_append_of_le_length (by omega)]
  rfl

theorem sizedReadStep_append_error (x cc bs nn : Nat) (rest2 p d : List Nat) (n : Nat)
    {s1 : DirectStream} {e : DSError}
    (h : sizedReadStep { buffer := x :: nn :: rest2, packet := p, packetSize := n }
        cc bs nn rest2 = .error s1 e) :
    sizedReadStep { buffer := x :: nn :: (rest2 ++ d), packet := p, packetSize := n }
        cc bs nn (rest2 ++ d) = .error (appendState s1 d) e := by
  simp only [sizedReadStep, List.length_cons, List.length_append] at h ⊢
  split at h
  · cases h
  next hlen =>
  rw [if_neg (by omega)]
  split at h
  next hguard =>
    rw [if_pos hguard]
    cases h
    simp [appendState]
  next hguard =>
    rw [if_neg hguard]
    cases h

/-- A step that makes progress makes the same progress when more data sits in
the rear of the buffer: the consumed bytes, the events and the packet state
are unchanged, and the extra data stays at the rear. -/
theorem handleStep_append_next {s s1 : DirectStream} {evts : List DSEvent} (d : List Nat)
    (h : handleStep s = .next s1 evts) :
    handleStep (appendState s d) = .next (appendState s1 d) evts := by
  obtain ⟨buf, p, n⟩ := s
  cases buf with
  | nil =>
    rw [handleStep_nil] at h
    cases h
  | cons c rest =>
    by_cases hcu : controlCharacterValues.contains c = false
    · rw [handleStep_unknown c rest p n hcu] at h
      cases h
    by_cases h24 : c = ControlCharacters.ReadReset
    · subst h24
      rw [handleStep_reset] at h
      cases h
      simp only [appendState, List.cons_append]
      rw [handleStep_reset]
    by_cases h16 : c = ControlCharacters.ReadByte
    · subst h16
      cases rest with
      | nil =>
        rw [handleStep_readByte_short] at h
        cases h
      | cons b rest2 =>
        rw [handleStep_readByte_if] at h
        split at h
        · cases h
        next hguard =>
        cases h
        simp only [appendState, List.cons_append]
        rw [handleStep_readByte_if, if_neg hguard]
    by_cases h17 : c = ControlCharacters.ReadBytes
    · subst h17
      cases rest with
      | nil =>
        rw [handleStep_readBytes_short] at h
        cases h
      | cons nn rest2 =>
        rw [handleStep_readBytes] at h
        simp only [appendState, List.cons_append]
        rw [handleStep_readBytes]
        exact sizedReadStep_append_next _ _ _ _ _ _ d _ h
    by_cases h18 : c = ControlCharacters.ReadKB
    · subst h18
      cases rest with
      | nil =>
        rw [handleStep_readKB_short] at h
        cases h
      | cons nn rest2 =>
        rw [handleStep_readKB] at h
        simp only [appendState, List.cons_append]
        rw [handleStep_readKB]
        exact sizedReadStep_append_next _ _ _ _ _ _ d _ h
    by_cases h19 : c = ControlCharacters.ReadMB
    · subst h19
      cases rest with
      | nil =>
        rw [handleStep_readMB_short] at h
        cases h
      | cons nn rest2 =>
        rw [handleStep_readMB] at h
        simp only [appendState, List.cons_append]
        rw [handleStep_readMB]
        exact sizedReadStep_append_next _ _ _ _ _ _ d _ h
    by_cases h20 : c = ControlCharacters.ReadGB
    · subst h20
      rw [handleStep_readGB] at h
      cases h
    by_cases h21 : c = ControlCharacters.ReadTB
    · subst h21
      rw [handleStep_readTB] at h
      cases h
    by_cases h22 : c = ControlCharacters.ReadPB
    · subst h22
      rw [handleStep_readPB] at h
      cases h
    by_cases h00 : c = ControlCharacters.KeepAlive
    · subst h00
      rw [handleStep_keepAlive] at h
      cases h
      simp only [appendState, List.cons_append]
      rw [handleStep_keepAlive]
    by_cases h23 : c = ControlCharacters.EndOfPacket
    · subst h23
      rw [handleStep_endOfPacket] at h
      cases h
      simp only [appendState, List.cons_append]
      rw [handleStep_endOfPacket]
    exfalso
    have hmem : c ∈ controlCharacterValues := by simpa using hcu
    simp only [controlCharacterValues, List.mem_cons, List.not_mem_nil, or_false] at hmem
    rcases hmem with h | h | h | h | h | h | h | h | h | h <;> simp_all

/-- A step that throws raises the same error, with the same events, when more
data sits in the rear of the buffer; the error state keeps the extra data in
the rear. -/
theorem handleStep_append_error {s s1 : DirectStream} {e : DSError} (d : List Nat)
    (h : handleStep s = .error s1 e) :
    handleStep (appendState s d) = .error (appendState s1 d) e := by
  obtain ⟨buf, p, n⟩ := s
  cases buf with
  | nil =>
    rw [handleStep_nil] at h
    cases h
  | cons c rest =>
    by_cases hcu : controlCharacterValues.contains c = false
    · rw [handleStep_unknown c rest p n hcu] at h
      cases h
      simp only [appendState, List.cons_append]
      rw [handleStep_unknown c (rest ++ d) p n hcu]
    by_cases h24 : c = ControlCharacters.ReadReset
    · subst h24
      rw [handleStep_reset] at h
      cases h
    by_cases h16 : c = ControlCharacters.ReadByte
    · subst h16
      cases rest with
      | nil =>
        rw [handleStep_readByte_short] at h
        cases h
      | cons b rest2 =>
        rw [handleStep_readByte_if] at h
        split at h
        next hguard =>
          cases h
          simp only [appendState, List.cons_append]
          rw [handleStep_readByte_if, if_pos hguard]
        next hguard =>
          cases h
    by_cases h17 : c = ControlCharacters.ReadBytes
    · subst h17
      cases rest with
      | nil =>
        rw [handleStep_readBytes_short] at h
        cases h
      | cons nn rest2 =>
        rw [handleStep_readBytes] at h
        simp only [appendState, List.cons_append]
        rw [handleStep_readBytes]
        exact sizedReadStep_append_error _ _ _ _ _ _ d _ h
    by_cases h18 : c = ControlCharacters.ReadKB
    · subst h18
      cases rest with
      | nil =>
        rw [handleStep_readKB_short] at h
        cases h
      | cons nn rest2 =>
        rw [handleStep_readKB] at h
        simp only [appendState, List.cons_append]
        rw [handleStep_readKB]
        exact sizedReadStep_append_error _ _ _ _ _ _ d _ h
    by_cases h19 : c = ControlCharacters.ReadMB
    · subst h19
      cases rest with
      | nil =>
        rw [handleStep_readMB_short] at h
        cases h
      | cons nn rest2 =>
        rw [handleStep_readMB] at h
        simp only [appendState, List.cons_append]
        rw [handleStep_readMB]
        exact sizedReadStep_append_error _ _ _ _ _ _ d _ h
    by_cases h20 : c = ControlCharacters.ReadGB
    · subst h20
      rw [handleStep_readGB] at h
      cases h
      simp only [appendState, List.cons_append]
      rw [handleStep_readGB]
    by_cases h21 : c = ControlCharacters.ReadTB
    · subst h21
      rw [handleStep_readTB] at h
      cases h
      simp only [appendState, List.cons_append]
      rw [handleStep_readTB]
    by_cases h22 : c = ControlCharacters.ReadPB
    · subst h22
      rw [handleStep_readPB] at h
      cases h
      simp only [appendState, List.cons_append]
      rw [handleStep_readPB]
    by_cases h00 : c = ControlCharacters.KeepAlive
    · subst h00
      rw [handleStep_keepAlive] at h
      cases h
    by_cases h23 : c = ControlCharacters.EndOfPacket
    · subst h23
      rw [handleStep_endOfPacket] at h
      cases h
    exfalso
    have hmem : c ∈ controlCharacterValues := by simpa using hcu
    simp only [controlCharacterValues, List.mem_cons, List.not_mem_nil, or_false] at hmem
    rcases hmem with h | h | h | h | h | h | h | h | h | h <;> simp_all

end NodeSubdata2

namespace NodeSubdata2

/-! ### Feeding data in several calls versus one call -/

theorem appendState_append (s : DirectStream) (d1 d2 : List Nat) :
    appendState (appendState s d1) d2 = appendState s (d1 ++ d2) := by
  simp [appendState]

/-- If a whole pass over the buffer succeeds, running the same pass with extra
data appended first replays the same events and then continues from the
stopping state with the extra data. -/
theorem handleNewData_append_ok : ∀ (f : Nat) {s s1 : DirectStream} {e1 : List DSEvent}
    (d : List Nat), handleLoop f s = (s1, e1, none) → s.buffer.length ≤ f →
    handleNewData (appendState s d) =
      ((handleNewData (appendState s1 d)).1,
       e1 ++ (handleNewData (appendState s1 d)).2.1,
       (handleNewData (appendState s1 d)).2.2) := by
  intro f
  induction f with
  | zero =>
    intro s s1 e1 d h hf
    rw [handleLoop_zero] at h
    cases h
    simp
  | succ f ih =>
    intro s s1 e1 d h hf
    rw [handleLoop_succ] at h
    cases hs : handleStep s with
    | stop =>
      rw [hs] at h
      cases h
      simp
    | error s2 e =>
      rw [hs] at h
      cases h
    | next s2 evts =>
      simp only [hs] at h
      rcases hr : handleLoop f s2 with ⟨a, bb, cc⟩
      rw [hr] at h
      simp only [Prod.mk.injEq] at h
      obtain ⟨ha, hb, hc⟩ := h
      subst ha
      subst hc
      subst hb
      have hlt := handleStep_next_length hs
      rw [handleNewData_next (handleStep_append_next d hs), ih d hr (by omega)]
      simp [List.append_assoc]

/-- If a whole pass over the buffer throws, running the same pass with extra
data appended first replays the same events and throws the same error, the
extra data still pending in the rear of the buffer. -/
theorem handleNewData_append_err : ∀ (f : Nat) {s s1 : DirectStream} {e1 : List DSEvent}
    {er : DSError} (d : List Nat), handleLoop f s = (s1, e1, some er) → s.buffer.length ≤ f →
    handleNewData (appendState s d) = (appendState s1 d, e1, some er) := by
  intro f
  induction f with
  | zero =>
    intro s s1 e1 er d h hf
    rw [handleLoop_zero] at h
    cases h
  | succ f ih =>
    intro s s1 e1 er d h hf
    rw [handleLoop_succ] at h
    cases hs : handleStep s with
    | stop =>
      rw [hs] at h
      cases h
    | error s2 e =>
      rw [hs] at h
      cases h
      exact handleNewData_error (handleStep_append_error d hs)
    | next s2 evts =>
      simp only [hs] at h
      rcases hr : handleLoop f s2 with ⟨a, bb, cc⟩
      rw [hr] at h
      simp only [Prod.mk.injEq] at h
      obtain ⟨ha, hb, hc⟩ := h
      subst ha
      subst hc
      subst hb
      have hlt := handleStep_next_length hs
      rw [handleNewData_next (handleStep_append_next d hs), ih d hr (by omega)]

theorem feed_append_ok {s s1 : DirectStream} {e1 : List DSEvent} (d1 d2 : List Nat)
    (h : feed s d1 = (s1, e1, none)) :
    feed s (d1 ++ d2) =
      ((feed s1 d2).1, e1 ++ (feed s1 d2).2.1, (feed s1 d2).2.2) := by
  have h2 := handleNewData_append_ok (appendState s d1).buffer.length d2 h le_rfl
  rw [appendState_append] at h2
  exact h2

theorem feed_append_err {s s1 : DirectStream} {e1 : List DSEvent} {er : DSError}
    (d1 d2 : List Nat) (h : feed s d1 = (s1, e1, some er)) :
    feed s (d1 ++ d2) = (appendState s1 d2, e1, some er) := by
  have h2 := handleNewData_append_err (appendState s d1).buffer.length d2 h le_rfl
  rw [appendState_append] at h2
  exact h2

theorem feed_ok_stable {s s1 : DirectStream} {e1 : List DSEvent} {d : List Nat}
    (h : feed s d = (s1, e1, none)) : handleStep s1 = .stop :=
  handleLoop_ok_stable (appendState s d).buffer.length h le_rfl

theorem feed_nil_stable {s : DirectStream} (hs : handleStep s = .stop) :
    feed s [] = (s, [], none) := by
  have : appendState s [] = s := by simp [appendState]
  rw [feed, this, handleNewData_stop hs]

/-- A decoder that has digested its buffer replays, over any list of chunks
fed one call at a time, exactly the run of the concatenation fed in one
call. -/
theorem feedAll_eq_feed_flatten : ∀ (chunks : List (List Nat)) (s s1 : DirectStream)
    (e : List DSEvent), handleStep s = .stop → feed s chunks.flatten = (s1, e, none) →
    feedAll s chunks = (s1, e, none) := by
  intro chunks
  induction chunks with
  | nil =>
    intro s s1 e hs h
    rw [List.flatten_nil, feed_nil_stable hs] at h
    cases h
    rfl
  | cons c cs ih =>
    intro s s1 e hs h
    rw [List.flatten_cons] at h
    rcases hr : feed s c with ⟨a, b, err⟩
    cases err with
    | some er =>
      rw [feed_append_err c cs.flatten hr] at h
      cases h
    | none =>
      have hcomp := feed_append_ok c cs.flatten hr
      rcases hr2 : feed a cs.flatten with ⟨a2, b2, err2⟩
      rw [hr2] at hcomp
      rw [hcomp] at h
      simp only [Prod.mk.injEq] at h
      obtain ⟨ha, hb, hc⟩ := h
      subst ha
      subst hc
      subst hb
      have hall := ih a a2 b2 (feed_ok_stable hr) hr2
      simp only [feedAll, hr, hall]

end NodeSubdata2

namespace NodeSubdata2

/-! ### Claim theorems -/

/-- C2: for every valid encoded byte sequence (one that a fresh decoder
digests without an error) and every partition of it into consecutive
sub-chunks, feeding the sub-chunks in order via successive `feed` calls
produces exactly the same final state and the same event sequence (same
order, same arguments) as feeding the whole sequence in a single `feed`
call; unresolved partial chunks are buffered without consuming anything and
resume on the next `feed`. -/
theorem c2_chunk_boundary_independence (chunks : List (List Nat)) (s1 : DirectStream)
    (e : List DSEvent) (h : feed DirectStream.fresh chunks.flatten = (s1, e, none)) :
    feedAll DirectStream.fresh chunks = (s1, e, none) :=
  feedAll_eq_feed_flatten chunks DirectStream.fresh s1 e rfl h

theorem c2_chunk_boundary_independence_witness :
    feedAll DirectStream.fresh [[ControlCharacters.ReadByte], [0x00, ControlCharacters.EndOfPacket]] =
      ({ buffer := [], packet := [], packetSize := 0 },
       [DSEvent.readByte 0, DSEvent.packet 1 [0]], none) :=
  c2_chunk_boundary_independence
    [[ControlCharacters.ReadByte], [0x00, ControlCharacters.EndOfPacket]]
    { buffer := [], packet := [], packetSize := 0 }
    [DSEvent.readByte 0, DSEvent.packet 1 [0]] (by decide)

/-- C4: when a `ReadReset` byte (0x18) is at the head of the decode buffer,
the decoder consumes it, discards both the in-progress packet accumulator and
the pre-reset backlog, emits exactly one `Reset` event, and continues
interpreting the bytes that followed the reset byte; in particular feeding
`ReadByte, 0x00`, then `ReadReset`, then `EndOfPacket` to a fresh decoder
yields exactly one `Read` event (value 0), one `Reset` event, and one
`Packet` event with empty payload and size 0. -/
theorem c4_reset_semantics :
    (∀ (rest p : List Nat) (n : Nat),
      handleNewData { buffer := ControlCharacters.ReadReset :: rest, packet := p, packetSize := n } =
        ((handleNewData { buffer := rest, packet := [], packetSize := 0 }).1,
         DSEvent.reset :: (handleNewData { buffer := rest, packet := [], packetSize := 0 }).2.1,
         (handleNewData { buffer := rest, packet := [], packetSize := 0 }).2.2)) ∧
    feed DirectStream.fresh
        [ControlCharacters.ReadByte, 0x00, ControlCharacters.ReadReset,
         ControlCharacters.EndOfPacket] =
      ({ buffer := [], packet := [], packetSize := 0 },
       [DSEvent.readByte 0, DSEvent.reset, DSEvent.packet 0 []], none) := by
  constructor
  · intro rest p n
    rw [handleNewData_next (handleStep_reset rest p n)]
    rfl
  · decide

/-- C7: feeding a decoder whose buffer head is a byte outside the
`ControlCharacters` enumeration raises the malformed-control-byte error and
emits no `Read`, `Packet` or `Reset` event in that `feed` call. -/
theorem c7_unknown_byte_fatal (c : Nat) (rest : List Nat)
    (h : controlCharacterValues.contains c = false) :
    feed DirectStream.fresh (c :: rest) =
      ({ buffer := c :: rest, packet := [], packetSize := 0 }, [],
       some (DSError.unknownControlCharacter c)) := by
  have happ : appendState DirectStream.fresh (c :: rest) =
      { buffer := c :: rest, packet := [], packetSize := 0 } := rfl
  rw [feed, happ, handleNewData_error (handleStep_unknown c rest [] 0 h)]

theorem c7_unknown_byte_fatal_witness :
    feed DirectStream.fresh [0xFF] =
      ({ buffer := [0xFF], packet := [], packetSize := 0 }, [],
       some (DSError.unknownControlCharacter 0xFF)) :=
  c7_unknown_byte_fatal 0xFF [] (by decide)

/-- C8: when the byte at the head of the decode buffer is `ReadGB` (0x14),
`ReadTB` (0x15) or `ReadPB` (0x16), the decoder raises the fatal
not-implemented error, which is a different error value from the
malformed-control-byte error, and emits no event for that byte. -/
theorem c8_unimplemented_fatal (c : Nat) (rest p : List Nat) (n : Nat)
    (h : c = ControlCharacters.ReadGB ∨ c = ControlCharacters.ReadTB
      ∨ c = ControlCharacters.ReadPB) :
    handleNewData { buffer := c :: rest, packet := p, packetSize := n } =
      ({ buffer := c :: rest, packet := p, packetSize := n }, [],
       some DSError.notImplemented) ∧
    DSError.notImplemented ≠ DSError.unknownControlCharacter c := by
  constructor
  · rcases h with h | h | h <;> subst h
    · exact handleNewData_error (handleStep_readGB rest p n)
    · exact handleNewData_error (handleStep_readTB rest p n)
    · exact handleNewData_error (handleStep_readPB rest p n)
  · intro hv
    cases hv

theorem c8_unimplemented_fatal_witness :
    handleNewData { buffer := [ControlCharacters.ReadGB], packet := [], packetSize := 0 } =
      ({ buffer := [ControlCharacters.ReadGB], packet := [], packetSize := 0 }, [],
       some DSError.notImplemented) ∧
    DSError.notImplemented ≠ DSError.unknownControlCharacter ControlCharacters.ReadGB :=
  c8_unimplemented_fatal ControlCharacters.ReadGB [] [] 0 (Or.inl rfl)

/-- C9: `Shell.send(p)` causes exactly one transport write, whose bytes are
the frame encoding of the algorithm-encoded payload followed by the single
`EndOfPacket` byte (0x17); with the default `Raw` algorithm (identity on
encode and decode) the written bytes are `encode p` followed by 0x17. -/
theorem c9_shell_send_single_write (algorithmEncode : List Nat → List Nat) (p : List Nat) :
    Shell.sendWrites algorithmEncode p =
      [DirectStream.encode (algorithmEncode p) ++ [ControlCharacters.EndOfPacket]] ∧
    Shell.sendWrites RawShellAlgorithm.encode p =
      [DirectStream.encode p ++ [ControlCharacters.EndOfPacket]] :=
  ⟨rfl, rfl⟩

/-- C5 counterexample: the `Packet` constructor does not fail on a raw buffer
with fewer than 2 bytes: the one-byte buffer `[0x05]` successfully constructs
a `Packet` with id 5 and empty payload (the source performs no length
check and `parseInt` on the short hex string succeeds). -/
theorem c5_short_raw_counterexample : Packet.ofRaw [0x05] = { id := some 5, data := [] } := rfl

/-- C5 (amended): constructing a `Packet` from a raw buffer with fewer than 2
bytes does not fail: an empty buffer yields a `NaN` id (modelled `none`) and
empty payload, a 1-byte buffer yields that byte as the id and empty payload;
for buffers of at least 2 bytes the first 2 bytes interpreted big-endian
become the id and the remainder becomes the payload. -/
theorem c5_short_raw_succeeds (raw : List Nat) :
    (raw = [] → Packet.ofRaw raw = { id := none, data := [] }) ∧
    (∀ b : Nat, raw = [b] → Packet.ofRaw raw = { id := some b, data := [] }) ∧
    (∀ (b0 b1 : Nat) (t : List Nat), raw = b0 :: b1 :: t →
      Packet.ofRaw raw = { id := some (b0 * 256 + b1), data := t }) := by
  refine ⟨?_, ?_, ?_⟩
  · intro h
    subst h
    rfl
  · intro b h
    subst h
    simp [Packet.ofRaw, parseIdHex]
  · intro b0 b1 t h
    subst h
    simp [Packet.ofRaw, parseIdHex]

theorem c5_short_raw_succeeds_witness :
    Packet.ofRaw [7, 8, 9] = { id := some (7 * 256 + 8), data := [9] } :=
  (c5_short_raw_succeeds [7, 8, 9]).2.2 7 8 [9] rfl

theorem Packet_ofRaw_cons_cons (b0 b1 : Nat) (t : List Nat) :
    Packet.ofRaw (b0 :: b1 :: t) = { id := some (b0 * 256 + b1), data := t } := by
  simp [Packet.ofRaw, parseIdHex]

theorem Packet_toRaw_some (i : Nat) (t : List Nat) :
    Packet.toRaw { id := some i, data := t } = i / 256 % 256 :: i % 256 :: t := rfl

/-- C6: for every id below 65536 and every payload `p`, parsing the raw form
of `Packet.fromID id p` yields back exactly `(id, p)`; conversely, for every
byte buffer `b` of length at least 2, `toRaw` applied to the `Packet`
constructed from `b` returns `b` itself. -/
theorem c6_packet_envelope_roundtrip (id : Nat) (p b : List Nat)
    (hid : id < 65536) (hb2 : 2 ≤ b.length) (hbytes : ∀ x ∈ b, x < 256) :
    Packet.ofRaw ((Packet.fromID id p).toRaw) = { id := some id, data := p } ∧
    (Packet.ofRaw b).toRaw = b := by
  constructor
  · have h1 : Packet.fromID id p = { id := some id, data := p } := by
      unfold Packet.fromID
      rw [show ([id / 256 % 256, id % 256] ++ p) = id / 256 % 256 :: id % 256 :: p from rfl,
        Packet_ofRaw_cons_cons]
      simp only [Packet.mk.injEq, Option.some.injEq, and_true]
      omega
    rw [h1, Packet_toRaw_some, Packet_ofRaw_cons_cons]
    simp only [Packet.mk.injEq, Option.some.injEq, and_true]
    omega
  · obtain ⟨b0, rest, hb⟩ : ∃ b0 rest, b = b0 :: rest := by
      cases b with
      | nil => simp at hb2
      | cons x xs => exact ⟨x, xs, rfl⟩
    obtain ⟨b1, t, hrest⟩ : ∃ b1 t, rest = b1 :: t := by
      cases rest with
      | nil => rw [hb] at hb2; simp at hb2
      | cons y ys => exact ⟨y, ys, rfl⟩
    subst hrest
    subst hb
    have hb0 : b0 < 256 := hbytes b0 (by simp)
    have hb1 : b1 < 256 := hbytes b1 (by simp)
    rw [Packet_ofRaw_cons_cons, Packet_toRaw_some]
    simp only [List.cons.injEq]
    refine ⟨by omega, by omega, trivial⟩

theorem c6_packet_envelope_roundtrip_witness :
    Packet.ofRaw ((Packet.fromID 43981 [1, 2, 3]).toRaw) =
      { id := some 43981, data := [1, 2, 3] } ∧
    (Packet.ofRaw [0, 1, 2]).toRaw = [0, 1, 2] :=
  c6_packet_envelope_roundtrip 43981 [1, 2, 3] [0, 1, 2] (by decide) (by decide) (by decide)

end NodeSubdata2

namespace NodeSubdata2

/-! ### The encoder implements the greedy chunking algorithm of the spec -/

theorem bestControlCharacter_readByte (remaining : Nat) (h1 : 1 ≤ remaining)
    (h4 : remaining < 4) :
    bestControlCharacter remaining = some (.readByte (remaining - 1)) := by
  unfold bestControlCharacter
  rw [if_neg (by omega), if_pos h4]

theorem bestControlCharacter_readBytes (remaining : Nat) (h4 : ¬remaining < 4)
    (hk : remaining < 4096) :
    bestControlCharacter remaining =
      some (.sized ControlCharacters.ReadBytes (min 255 (remaining / 4 - 1))
        (remaining - 4 * (min 255 (remaining / 4 - 1) + 1))) := by
  unfold bestControlCharacter calculateControlCharacterRemainder bytes
  rw [if_neg (by omega), if_neg h4, if_pos (show remaining < kb 4 by unfold kb; omega)]

theorem bestControlCharacter_readKB (remaining : Nat) (hk : ¬remaining < 4096)
    (hm : remaining < 4194304) :
    bestControlCharacter remaining =
      some (.sized ControlCharacters.ReadKB (min 255 (remaining / 4096 - 1))
        (remaining - 4096 * (min 255 (remaining / 4096 - 1) + 1))) := by
  unfold bestControlCharacter calculateControlCharacterRemainder
  rw [if_neg (by omega), if_neg (by omega),
    if_neg (show ¬remaining < kb 4 by unfold kb; omega),
    if_pos (show remaining < mb 4 by unfold mb kb; omega)]
  rw [show kb 4 = 4096 from rfl]

theorem bestControlCharacter_readMB (remaining : Nat) (hm : ¬remaining < 4194304) :
    bestControlCharacter remaining =
      some (.sized ControlCharacters.ReadMB (min 255 (remaining / 4194304 - 1))
        (remaining - 4194304 * (min 255 (remaining / 4194304 - 1) + 1))) := by
  unfold bestControlCharacter calculateControlCharacterRemainder
  rw [if_neg (by omega), if_neg (by omega),
    if_neg (show ¬remaining < kb 4 by unfold kb; omega),
    if_neg (show ¬remaining < mb 4 by unfold mb kb; omega)]
  rw [show mb 4 = 4194304 from rfl]

theorem encodeByteSize_bytes (number : Nat) :
    encodeByteSize ControlCharacters.ReadBytes number = (number + 1) * 4 := rfl

theorem encodeByteSize_kb (number : Nat) :
    encodeByteSize ControlCharacters.ReadKB number = (number + 1) * 4096 := by
  unfold encodeByteSize
  rw [if_neg (by decide), if_pos rfl]
  unfold kb
  ring

theorem encodeByteSize_mb (number : Nat) :
    encodeByteSize ControlCharacters.ReadMB number = (number + 1) * 4194304 := by
  unfold encodeByteSize
  rw [if_neg (by decide), if_neg (by decide)]
  unfold mb kb
  ring

/-- The positional encode loop of the source equals the spec-modelled greedy
loop applied to the still-unconsumed tail of the input. -/
theorem encodeGo_eq_encodeSpecGo (input : List Nat) :
    ∀ (fuel size remaining : Nat), size = input.length → remaining ≤ size →
      encodeGo fuel input size remaining = encodeSpecGo fuel (input.drop (size - remaining)) := by
  intro fuel
  induction fuel with
  | zero =>
    intro size remaining h1 h2
    cases input.drop (size - remaining) <;> rfl
  | succ fuel ih =>
    intro size remaining hsize hrem
    have hlen : (input.drop (size - remaining)).length = remaining := by
      rw [List.length_drop]
      omega
    by_cases h0 : remaining = 0
    · subst h0
      have hdrop : input.drop (size - 0) = [] := List.length_eq_zero.mp (by omega)
      rw [hdrop]
      rfl
    obtain ⟨b, rest1, hbr⟩ : ∃ b rest1, input.drop (size - remaining) = b :: rest1 := by
      cases hx : input.drop (size - remaining) with
      | nil =>
        rw [hx] at hlen
        simp at hlen
        omega
      | cons y ys => exact ⟨y, ys, rfl⟩
    have hrl : rest1.length + 1 = remaining := by
      rw [hbr] at hlen
      simpa using hlen
    have hdroptail : input.drop (size - (remaining - 1)) = rest1 := by
      have heq : size - (remaining - 1) = (size - remaining) + 1 := by omega
      rw [heq, ← List.drop_drop, hbr]
      rfl
    by_cases h4 : remaining < 4
    · simp only [encodeGo, if_neg h0, bestControlCharacter_readByte remaining (by omega) h4]
      rw [hbr, ih size (remaining - 1) hsize (by omega), hdroptail]
      simp only [encodeSpecGo, hrl, if_pos h4]
      rfl
    by_cases hk : remaining < 4096
    · simp only [encodeGo, if_neg h0, bestControlCharacter_readBytes remaining h4 hk,
        encodeByteSize_bytes]
      have hbs : (min 255 (remaining / 4 - 1) + 1) * 4 ≤ remaining := by omega
      rw [hbr, ih size (remaining - (min 255 (remaining / 4 - 1) + 1) * 4) hsize (by omega)]
      have hdr : input.drop (size - (remaining - (min 255 (remaining / 4 - 1) + 1) * 4)) =
          (b :: rest1).drop ((min 255 (remaining / 4 - 1) + 1) * 4) := by
        have heq : size - (remaining - (min 255 (remaining / 4 - 1) + 1) * 4) =
            (size - remaining) + (min 255 (remaining / 4 - 1) + 1) * 4 := by omega
        rw [heq, ← List.drop_drop, hbr]
      rw [hdr]
      simp only [encodeSpecGo, hrl, if_neg h4, if_pos hk]
    by_cases hm : remaining < 4194304
    · simp only [encodeGo, if_neg h0, bestControlCharacter_readKB remaining hk hm,
        encodeByteSize_kb]
      have hbs : (min 255 (remaining / 4096 - 1) + 1) * 4096 ≤ remaining := by omega
      rw [hbr, ih size (remaining - (min 255 (remaining / 4096 - 1) + 1) * 4096) hsize (by omega)]
      have hdr : input.drop (size - (remaining - (min 255 (remaining / 4096 - 1) + 1) * 4096)) =
          (b :: rest1).drop ((min 255 (remaining / 4096 - 1) + 1) * 4096) := by
        have heq : size - (remaining - (min 255 (remaining / 4096 - 1) + 1) * 4096) =
            (size - remaining) + (min 255 (remaining / 4096 - 1) + 1) * 4096 := by omega
        rw [heq, ← List.drop_drop, hbr]
      rw [hdr]
      simp only [encodeSpecGo, hrl, if_neg h4, if_neg hk, if_pos hm]
    · simp only [encodeGo, if_neg h0, bestControlCharacter_readMB remaining hm,
        encodeByteSize_mb]
      have hbs : (min 255 (remaining / 4194304 - 1) + 1) * 4194304 ≤ remaining := by omega
      rw [hbr, ih size (remaining - (min 255 (remaining / 4194304 - 1) + 1) * 4194304) hsize
        (by omega)]
      have hdr : input.drop
            (size - (remaining - (min 255 (remaining / 4194304 - 1) + 1) * 4194304)) =
          (b :: rest1).drop ((min 255 (remaining / 4194304 - 1) + 1) * 4194304) := by
        have heq : size - (remaining - (min 255 (remaining / 4194304 - 1) + 1) * 4194304) =
            (size - remaining) + (min 255 (remaining / 4194304 - 1) + 1) * 4194304 := by omega
        rw [heq, ← List.drop_drop, hbr]
      rw [hdr]
      simp only [encodeSpecGo, hrl, if_neg h4, if_neg hk, if_neg hm]

end NodeSubdata2

namespace NodeSubdata2

/-- C3: for every input buffer, `encode` proceeds greedily from the front of
the remaining payload: while at least 4 bytes remain it picks unit 4
(`ReadBytes`) if `remaining < 4096`, unit 4096 (`ReadKB`) if
`remaining < 4194304`, else unit 4194304 (`ReadMB`), emits the control byte,
then `count = min 255 (remaining / unit - 1)` as one byte, then exactly
`(count + 1) * unit` payload bytes, consuming them; when 1 to 3 bytes remain
each is emitted as its own 2-byte `ReadByte` chunk, never batched; encode of
the empty buffer is the empty buffer.  `encodeSpec` is that algorithm
transcribed from the spec. -/
theorem c3_encode_greedy :
    (∀ input : List Nat, DirectStream.encode input = encodeSpec input) ∧
    DirectStream.encode [] = [] := by
  constructor
  · intro input
    unfold DirectStream.encode encodeSpec
    rw [encodeGo_eq_encodeSpecGo input input.length input.length input.length rfl le_rfl,
      Nat.sub_self, List.drop_zero]
  · rfl

/-! ### Decoding the encoder output -/

/-- One fully present sized chunk at the head of the buffer is consumed in
one step, appending its payload to the packet accumulator. -/
theorem handleStep_sized_chunk (cc byteSize count : Nat) (data tail pkt : List Nat) (psz : Nat)
    (hcc : cc = ControlCharacters.ReadBytes ∧ byteSize = (count + 1) * 4
      ∨ cc = ControlCharacters.ReadKB ∧ byteSize = kb (count + 1) * 4
      ∨ cc = ControlCharacters.ReadMB ∧ byteSize = mb (count + 1) * 4)
    (hdata : data.length = byteSize)
    (hguard : psz + byteSize < maxSafeInteger - 1000) :
    handleStep { buffer := cc :: count :: (data ++ tail), packet := pkt, packetSize := psz } =
      .next { buffer := tail, packet := pkt ++ data, packetSize := psz + byteSize }
        [.read cc count data] := by
  have htake : (data ++ tail).take byteSize = data := by
    rw [List.take_append_of_le_length (by omega), ← hdata, List.take_length]
  have hdrop : (data ++ tail).drop byteSize = tail := by
    rw [List.drop_append_of_le_length (by omega), ← hdata, List.drop_length]
    rfl
  have hlen2 : byteSize + 2 ≤ (cc :: count :: (data ++ tail)).length := by
    simp only [List.length_cons, List.length_append]
    omega
  rcases hcc with ⟨h1, h2⟩ | ⟨h1, h2⟩ | ⟨h1, h2⟩ <;> subst h1 <;> subst h2
  · rw [handleStep_readBytes, sizedReadStep_next _ _ _ _ _ hlen2 hguard, htake, hdrop]
  · rw [handleStep_readKB, sizedReadStep_next _ _ _ _ _ hlen2 hguard, htake, hdrop]
  · rw [handleStep_readMB, sizedReadStep_next _ _ _ _ _ hlen2 hguard, htake, hdrop]

end NodeSubdata2

namespace NodeSubdata2

/-- Decoding the spec-shaped encoder output consumes every chunk, emits the
matching `Read` events, appends the whole payload to the packet accumulator,
and then continues with whatever suffix follows. -/
theorem decode_encodeSpecGo : ∀ (fuelE : Nat) (rest pkt suffix : List Nat) (psz : Nat),
    rest.length ≤ fuelE → psz + rest.length < maxSafeInteger - 1000 →
    handleNewData { buffer := encodeSpecGo fuelE rest ++ suffix, packet := pkt, packetSize := psz } =
      ((handleNewData { buffer := suffix, packet := pkt ++ rest, packetSize := psz + rest.length }).1,
       readEventsGo fuelE rest ++ (handleNewData { buffer := suffix, packet := pkt ++ rest, packetSize := psz + rest.length }).2.1,
       (handleNewData { buffer := suffix, packet := pkt ++ rest, packetSize := psz + rest.length }).2.2) := by
  intro fuelE
  induction fuelE with
  | zero =>
    intro rest pkt suffix psz hf hg
    have hnil : rest = [] := List.length_eq_zero.mp (by omega)
    subst hnil
    simp [encodeSpecGo, readEventsGo]
  | succ fuelE ih =>
    intro rest pkt suffix psz hf hg
    cases rest with
    | nil => simp [encodeSpecGo, readEventsGo]
    | cons b rest1 =>
      simp only [List.length_cons] at hf hg
      by_cases h4 : rest1.length + 1 < 4
      · have henc : encodeSpecGo (fuelE + 1) (b :: rest1) =
            ControlCharacters.ReadByte :: b :: encodeSpecGo fuelE rest1 := by
          simp only [encodeSpecGo, if_pos h4]
        have hevs : readEventsGo (fuelE + 1) (b :: rest1) =
            DSEvent.readByte b :: readEventsGo fuelE rest1 := by
          simp only [readEventsGo, if_pos h4]
        rw [henc, hevs]
        rw [show (ControlCharacters.ReadByte :: b :: encodeSpecGo fuelE rest1) ++ suffix =
          ControlCharacters.ReadByte :: b :: (encodeSpecGo fuelE rest1 ++ suffix) from rfl]
        rw [handleNewData_next
          (handleStep_readByte b (encodeSpecGo fuelE rest1 ++ suffix) pkt psz (by omega))]
        rw [ih rest1 (pkt ++ [b]) suffix (psz + 1) (by omega) (by omega)]
        have e1 : (pkt ++ [b]) ++ rest1 = pkt ++ (b :: rest1) := by simp
        have e2 : psz + 1 + rest1.length = psz + (b :: rest1).length := by
          simp only [List.length_cons]
          omega
        rw [e1, e2]
        simp
      by_cases hk : rest1.length + 1 < 4096
      · have henc : encodeSpecGo (fuelE + 1) (b :: rest1) =
            ControlCharacters.ReadBytes :: min 255 ((rest1.length + 1) / 4 - 1) ::
              ((b :: rest1).take ((min 255 ((rest1.length + 1) / 4 - 1) + 1) * 4) ++
                encodeSpecGo fuelE
                  ((b :: rest1).drop ((min 255 ((rest1.length + 1) / 4 - 1) + 1) * 4))) := by
          simp only [encodeSpecGo, if_neg h4, if_pos hk]
        have hevs : readEventsGo (fuelE + 1) (b :: rest1) =
            DSEvent.read ControlCharacters.ReadBytes (min 255 ((rest1.length + 1) / 4 - 1))
              ((b :: rest1).take ((min 255 ((rest1.length + 1) / 4 - 1) + 1) * 4)) ::
              readEventsGo fuelE
                ((b :: rest1).drop ((min 255 ((rest1.length + 1) / 4 - 1) + 1) * 4)) := by
          simp only [readEventsGo, if_neg h4, if_pos hk]
        generalize hcn : min 255 ((rest1.length + 1) / 4 - 1) = cnt at henc hevs
        have hch : (cnt + 1) * 4 ≤ rest1.length + 1 := by omega
        rw [henc, hevs]
        rw [show (ControlCharacters.ReadBytes :: cnt ::
            ((b :: rest1).take ((cnt + 1) * 4) ++
              encodeSpecGo fuelE ((b :: rest1).drop ((cnt + 1) * 4)))) ++ suffix =
          ControlCharacters.ReadBytes :: cnt ::
            ((b :: rest1).take ((cnt + 1) * 4) ++
              (encodeSpecGo fuelE ((b :: rest1).drop ((cnt + 1) * 4)) ++ suffix)) from by
          simp [List.append_assoc]]
        rw [handleNewData_next
          (handleStep_sized_chunk ControlCharacters.ReadBytes ((cnt + 1) * 4) cnt
            ((b :: rest1).take ((cnt + 1) * 4))
            (encodeSpecGo fuelE ((b :: rest1).drop ((cnt + 1) * 4)) ++ suffix) pkt psz
            (Or.inl ⟨rfl, rfl⟩)
            (by simp only [List.length_take, List.length_cons]; omega)
            (by omega))]
        rw [ih ((b :: rest1).drop ((cnt + 1) * 4)) (pkt ++ (b :: rest1).take ((cnt + 1) * 4))
          suffix (psz + (cnt + 1) * 4)
          (by simp only [List.length_drop, List.length_cons]; omega)
          (by simp only [List.length_drop, List.length_cons]; omega)]
        have e1 : (pkt ++ (b :: rest1).take ((cnt + 1) * 4)) ++
            (b :: rest1).drop ((cnt + 1) * 4) = pkt ++ (b :: rest1) := by
          rw [List.append_assoc, List.take_append_drop]
        have e2 : psz + (cnt + 1) * 4 + ((b :: rest1).drop ((cnt + 1) * 4)).length =
            psz + (b :: rest1).length := by
          simp only [List.length_drop, List.length_cons]
          omega
        rw [e1, e2]
        simp
      by_cases hm : rest1.length + 1 < 4194304
      · have henc : encodeSpecGo (fuelE + 1) (b :: rest1) =
            ControlCharacters.ReadKB :: min 255 ((rest1.length + 1) / 4096 - 1) ::
              ((b :: rest1).take ((min 255 ((rest1.length + 1) / 4096 - 1) + 1) * 4096) ++
                encodeSpecGo fuelE
                  ((b :: rest1).drop ((min 255 ((rest1.length + 1) / 4096 - 1) + 1) * 4096))) := by
          simp only [encodeSpecGo, if_neg h4, if_neg hk, if_pos hm]
        have hevs : readEventsGo (fuelE + 1) (b :: rest1) =
            DSEvent.read ControlCharacters.ReadKB (min 255 ((rest1.length + 1) / 4096 - 1))
              ((b :: rest1).take ((min 255 ((rest1.length + 1) / 4096 - 1) + 1) * 4096)) ::
              readEventsGo fuelE
                ((b :: rest1).drop ((min 255 ((rest1.length + 1) / 4096 - 1) + 1) * 4096)) := by
          simp only [readEventsGo, if_neg h4, if_neg hk, if_pos hm]
        generalize hcn : min 255 ((rest1.length + 1) / 4096 - 1) = cnt at henc hevs
        have hch : (cnt + 1) * 4096 ≤ rest1.length + 1 := by omega
        rw [henc, hevs]
        rw [show (ControlCharacters.ReadKB :: cnt ::
            ((b :: rest1).take ((cnt + 1) * 4096) ++
              encodeSpecGo fuelE ((b :: rest1).drop ((cnt + 1) * 4096)))) ++ suffix =
          ControlCharacters.ReadKB :: cnt ::
            ((b :: rest1).take ((cnt + 1) * 4096) ++
              (encodeSpecGo fuelE ((b :: rest1).drop ((cnt + 1) * 4096)) ++ suffix)) from by
          simp [List.append_assoc]]
        rw [handleNewData_next
          (handleStep_sized_chunk ControlCharacters.ReadKB ((cnt + 1) * 4096) cnt
            ((b :: rest1).take ((cnt + 1) * 4096))
            (encodeSpecGo fuelE ((b :: rest1).drop ((cnt + 1) * 4096)) ++ suffix) pkt psz
            (Or.inr (Or.inl ⟨rfl, by unfold kb; ring⟩))
            (by simp only [List.length_take, List.length_cons]; omega)
            (by omega))]
        rw [ih ((b :: rest1).drop ((cnt + 1) * 4096)) (pkt ++ (b :: rest1).take ((cnt + 1) * 4096))
          suffix (psz + (cnt + 1) * 4096)
          (by simp only [List.length_drop, List.length_cons]; omega)
          (by simp only [List.length_drop, List.length_cons]; omega)]
        have e1 : (pkt ++ (b :: rest1).take ((cnt + 1) * 4096)) ++
            (b :: rest1).drop ((cnt + 1) * 4096) = pkt ++ (b :: rest1) := by
          rw [List.append_assoc, List.take_append_drop]
        have e2 : psz + (cnt + 1) * 4096 + ((b :: rest1).drop ((cnt + 1) * 4096)).length =
            psz + (b :: rest1).length := by
          simp only [List.length_drop, List.length_cons]
          omega
        rw [e1, e2]
        simp
      · have henc : encodeSpecGo (fuelE + 1) (b :: rest1) =
            ControlCharacters.ReadMB :: min 255 ((rest1.length + 1) / 4194304 - 1) ::
              ((b :: rest1).take ((min 255 ((rest1.length + 1) / 4194304 - 1) + 1) * 4194304) ++
                encodeSpecGo fuelE
                  ((b :: rest1).drop
                    ((min 255 ((rest1.length + 1) / 4194304 - 1) + 1) * 4194304))) := by
          simp only [encodeSpecGo, if_neg h4, if_neg hk, if_neg hm]
        have hevs : readEventsGo (fuelE + 1) (b :: rest1) =
            DSEvent.read ControlCharacters.ReadMB (min 255 ((rest1.length + 1) / 4194304 - 1))
              ((b :: rest1).take ((min 255 ((rest1.length + 1) / 4194304 - 1) + 1) * 4194304)) ::
              readEventsGo fuelE
                ((b :: rest1).drop
                  ((min 255 ((rest1.length + 1) / 4194304 - 1) + 1) * 4194304)) := by
          simp only [readEventsGo, if_neg h4, if_neg hk, if_neg hm]
        generalize hcn : min 255 ((rest1.length + 1) / 4194304 - 1) = cnt at henc hevs
        have hch : (cnt + 1) * 4194304 ≤ rest1.length + 1 := by omega
        rw [henc, hevs]
        rw [show (ControlCharacters.ReadMB :: cnt ::
            ((b :: rest1).take ((cnt + 1) * 4194304) ++
              encodeSpecGo fuelE ((b :: rest1).drop ((cnt + 1) * 4194304)))) ++ suffix =
          ControlCharacters.ReadMB :: cnt ::
            ((b :: rest1).take ((cnt + 1) * 4194304) ++
              (encodeSpecGo fuelE ((b :: rest1).drop ((cnt + 1) * 4194304)) ++ suffix)) from by
          simp [List.append_assoc]]
        rw [handleNewData_next
          (handleStep_sized_chunk ControlCharacters.ReadMB ((cnt + 1) * 4194304) cnt
            ((b :: rest1).take ((cnt + 1) * 4194304))
            (encodeSpecGo fuelE ((b :: rest1).drop ((cnt + 1) * 4194304)) ++ suffix) pkt psz
            (Or.inr (Or.inr ⟨rfl, by unfold mb kb; ring⟩))
            (by simp only [List.length_take, List.length_cons]; omega)
            (by omega))]
        rw [ih ((b :: rest1).drop ((cnt + 1) * 4194304))
          (pkt ++ (b :: rest1).take ((cnt + 1) * 4194304))
          suffix (psz + (cnt + 1) * 4194304)
          (by simp only [List.length_drop, List.length_cons]; omega)
          (by simp only [List.length_drop, List.length_cons]; omega)]
        have e1 : (pkt ++ (b :: rest1).take ((cnt + 1) * 4194304)) ++
            (b :: rest1).drop ((cnt + 1) * 4194304) = pkt ++ (b :: rest1) := by
          rw [List.append_assoc, List.take_append_drop]
        have e2 : psz + (cnt + 1) * 4194304 + ((b :: rest1).drop ((cnt + 1) * 4194304)).length =
            psz + (b :: rest1).length := by
          simp only [List.length_drop, List.length_cons]
          omega
        rw [e1, e2]
        simp

end NodeSubdata2

namespace NodeSubdata2

/-- The events produced while decoding encoder output are all `Read` events:
filtering for `Packet` events yields nothing. -/
theorem readEventsGo_no_packet : ∀ (fuel : Nat) (l : List Nat),
    (readEventsGo fuel l).filterMap packetEvent = [] := by
  intro fuel
  induction fuel with
  | zero =>
    intro l
    cases l <;> rfl
  | succ f ih =>
    intro l
    cases l with
    | nil => rfl
    | cons b rest =>
      by_cases h4 : rest.length + 1 < 4
      · simp only [readEventsGo, if_pos h4, List.filterMap_cons]
        simp [packetEvent, ih]
      · simp only [readEventsGo, if_neg h4, List.filterMap_cons]
        simp [packetEvent, ih]

/-- C1: for every byte buffer `b` (of realistic length: below the decoder
overflow guard, far above any actual `Buffer`), feeding
`DirectStream.encode b` followed by the single `EndOfPacket` byte (0x17)
into a freshly constructed decoder succeeds and emits exactly one `Packet`
event, whose payload equals `b` and whose reported size equals the length of
`b`. -/
theorem c1_round_trip (b : List Nat) (hlen : b.length < maxSafeInteger - 1000)
    (hbytes : ∀ x ∈ b, x < 256) :
    ∃ (evs : List DSEvent) (s1 : DirectStream),
      feed DirectStream.fresh (DirectStream.encode b ++ [ControlCharacters.EndOfPacket]) =
        (s1, evs, none) ∧
      evs.filterMap packetEvent = [(b.length, b)] := by
  refine ⟨readEventsGo b.length b ++ [DSEvent.packet b.length b],
    { buffer := [], packet := [], packetSize := 0 }, ?_, ?_⟩
  · have happ : appendState DirectStream.fresh
        (DirectStream.encode b ++ [ControlCharacters.EndOfPacket]) =
        { buffer := DirectStream.encode b ++ [ControlCharacters.EndOfPacket], packet := [], packetSize := 0 } := by
      simp [appendState, DirectStream.fresh]
    rw [feed, happ]
    have henc : DirectStream.encode b = encodeSpecGo b.length b := by
      unfold DirectStream.encode
      rw [encodeGo_eq_encodeSpecGo b b.length b.length b.length rfl le_rfl,
        Nat.sub_self, List.drop_zero]
    rw [henc]
    rw [decode_encodeSpecGo b.length b [] [ControlCharacters.EndOfPacket] 0 le_rfl (by omega)]
    have heop : handleNewData { buffer := [ControlCharacters.EndOfPacket], packet := [] ++ b, packetSize := 0 + b.length } =
        ({ buffer := [], packet := [], packetSize := 0 }, [DSEvent.packet (0 + b.length) ([] ++ b)], none) := rfl
    rw [heop]
    simp
  · rw [List.filterMap_append, readEventsGo_no_packet]
    simp [packetEvent]

theorem c1_round_trip_witness :
    ∃ (evs : List DSEvent) (s1 : DirectStream),
      feed DirectStream.fresh
          (DirectStream.encode [1, 2] ++ [ControlCharacters.EndOfPacket]) =
        (s1, evs, none) ∧
      evs.filterMap packetEvent = [(2, [1, 2])] :=
  c1_round_trip [1, 2] (by decide) (by decide)

end NodeSubdata2

namespace NodeSubdata2

/-! ### The packet payload equals the reads accumulated since the last boundary -/

theorem checkEvents_append (e1 e2 : List DSEvent) : ∀ (acc : List Nat),
    checkEvents acc (e1 ++ e2) =
      (checkEvents acc e1 && checkEvents (applyEvents acc e1) e2) := by
  induction e1 with
  | nil =>
    intro acc
    simp [checkEvents, applyEvents]
  | cons e es ih =>
    intro acc
    cases e with
    | readByte b =>
      simp only [List.cons_append, checkEvents, applyEvents, List.foldl_cons, List.append_eq]
      exact ih (applyEvent acc (.readByte b))
    | read cc nn data =>
      simp only [List.cons_append, checkEvents, applyEvents, List.foldl_cons, List.append_eq]
      exact ih (applyEvent acc (.read cc nn data))
    | packet size data =>
      simp only [List.cons_append, checkEvents, applyEvents, List.foldl_cons, List.append_eq]
      rw [show applyEvent acc (DSEvent.packet size data) = [] from rfl, ih []]
      simp [applyEvents, Bool.and_assoc]
    | reset =>
      simp only [List.cons_append, checkEvents, applyEvents, List.foldl_cons, List.append_eq]
      rw [show applyEvent acc DSEvent.reset = [] from rfl, ih []]
      simp [applyEvents]

/-- A decode step whose packet accumulator matches the pending payload emits
events that keep the trace consistent and leave the accumulator matching
again; the step never emits more than one event, and the `Packet` event
carries exactly the pending payload with its length. -/
theorem handleStep_checkEvents {s s1 : DirectStream} {evts : List DSEvent}
    (h : handleStep s = .next s1 evts) (hpk : s.packetSize = s.packet.length) :
    checkEvents s.packet evts = true ∧
    s1.packet = applyEvents s.packet evts ∧
    s1.packetSize = s1.packet.length := by
  obtain ⟨buf, p, n⟩ := s
  simp only at hpk
  subst hpk
  cases buf with
  | nil =>
    rw [handleStep_nil] at h
    cases h
  | cons c rest =>
    by_cases hcu : controlCharacterValues.contains c = false
    · rw [handleStep_unknown c rest p _ hcu] at h
      cases h
    by_cases h24 : c = ControlCharacters.ReadReset
    · subst h24
      rw [handleStep_reset] at h
      cases h
      refine ⟨rfl, rfl, rfl⟩
    by_cases h16 : c = ControlCharacters.ReadByte
    · subst h16
      cases rest with
      | nil =>
        rw [handleStep_readByte_short] at h
        cases h
      | cons b rest2 =>
        rw [handleStep_readByte_if] at h
        split at h
        · cases h
        cases h
        refine ⟨rfl, rfl, by simp [applyEvents, applyEvent]⟩
    by_cases h17 : c = ControlCharacters.ReadBytes
    · subst h17
      cases rest with
      | nil =>
        rw [handleStep_readBytes_short] at h
        cases h
      | cons nn rest2 =>
        rw [handleStep_readBytes] at h
        simp only [sizedReadStep, List.length_cons] at h
        split at h
        · cases h
        next hle =>
        split at h
        · cases h
        cases h
        refine ⟨rfl, rfl, ?_⟩
        simp only [applyEvents, applyEvent, List.length_append, List.length_take]
        omega
    by_cases h18 : c = ControlCharacters.ReadKB
    · subst h18
      cases rest with
      | nil =>
        rw [handleStep_readKB_short] at h
        cases h
      | cons nn rest2 =>
        rw [handleStep_readKB] at h
        simp only [sizedReadStep, List.length_cons] at h
        split at h
        · cases h
        next hle =>
        split at h
        · cases h
        cases h
        refine ⟨rfl, rfl, ?_⟩
        simp only [applyEvents, applyEvent, List.length_append, List.length_take]
        omega
    by_cases h19 : c = ControlCharacters.ReadMB
    · subst h19
      cases rest with
      | nil =>
        rw [handleStep_readMB_short] at h
        cases h
      | cons nn rest2 =>
        rw [handleStep_readMB] at h
        simp only [sizedReadStep, List.length_cons] at h
        split at h
        · cases h
        next hle =>
        split at h
        · cases h
        cases h
        refine ⟨rfl, rfl, ?_⟩
        simp only [applyEvents, applyEvent, List.length_append, List.length_take]
        omega
    by_cases h20 : c = ControlCharacters.ReadGB
    · subst h20
      rw [handleStep_readGB] at h
      cases h
    by_cases h21 : c = ControlCharacters.ReadTB
    · subst h21
      rw [handleStep_readTB] at h
      cases h
    by_cases h22 : c = ControlCharacters.ReadPB
    · subst h22
      rw [handleStep_readPB] at h
      cases h
    by_cases h00 : c = ControlCharacters.KeepAlive
    · subst h00
      rw [handleStep_keepAlive] at h
      cases h
      refine ⟨rfl, rfl, rfl⟩
    by_cases h23 : c = ControlCharacters.EndOfPacket
    · subst h23
      rw [handleStep_endOfPacket] at h
      cases h
      refine ⟨by simp [checkEvents], rfl, rfl⟩
    exfalso
    have hmem : c ∈ controlCharacterValues := by simpa using hcu
    simp only [controlCharacterValues, List.mem_cons, List.not_mem_nil, or_false] at hmem
    rcases hmem with h | h | h | h | h | h | h | h | h | h <;> simp_all

/-- Along a whole `_handleNewData` pass, the trace stays consistent with the
pending payload, and on a normal return the accumulator again matches. -/
theorem handleLoop_checkEvents : ∀ (f : Nat) {s s1 : DirectStream} {evts : List DSEvent}
    {err : Option DSError}, handleLoop f s = (s1, evts, err) →
    s.packetSize = s.packet.length →
    checkEvents s.packet evts = true ∧
    (err = none → s1.packet = applyEvents s.packet evts ∧ s1.packetSize = s1.packet.length) := by
  intro f
  induction f with
  | zero =>
    intro s s1 evts err h hpk
    rw [handleLoop_zero] at h
    cases h
    exact ⟨rfl, fun _ => ⟨rfl, hpk⟩⟩
  | succ f ih =>
    intro s s1 evts err h hpk
    rw [handleLoop_succ] at h
    cases hs : handleStep s with
    | stop =>
      rw [hs] at h
      cases h
      exact ⟨rfl, fun _ => ⟨rfl, hpk⟩⟩
    | error s2 e =>
      rw [hs] at h
      cases h
      exact ⟨rfl, by intro hx; cases hx⟩
    | next s2 evts2 =>
      simp only [hs] at h
      rcases hr : handleLoop f s2 with ⟨a, bb, cc⟩
      rw [hr] at h
      simp only [Prod.mk.injEq] at h
      obtain ⟨ha, hb, hc⟩ := h
      subst ha
      subst hb
      subst hc
      obtain ⟨hchk, hpk2, hsz2⟩ := handleStep_checkEvents hs hpk
      obtain ⟨hchk2, hrest⟩ := ih hr hsz2
      constructor
      · rw [checkEvents_append, hchk, ← hpk2, hchk2]
        rfl
      · intro hnone
        obtain ⟨hp3, hs3⟩ := hrest hnone
        constructor
        · rw [hp3, hpk2, applyEvents, applyEvents, applyEvents, List.foldl_append]
        · exact hs3

end NodeSubdata2

namespace NodeSubdata2

theorem feedAll_checkEvents : ∀ (chunks : List (List Nat)) (s : DirectStream),
    s.packetSize = s.packet.length →
    checkEvents s.packet (feedAll s chunks).2.1 = true := by
  intro chunks
  induction chunks with
  | nil =>
    intro s hpk
    rfl
  | cons c cs ih =>
    intro s hpk
    rcases hr : feed s c with ⟨a, bb, err⟩
    obtain ⟨hchk, hrest⟩ := handleLoop_checkEvents (appendState s c).buffer.length hr hpk
    rw [show (appendState s c).packet = s.packet from rfl] at hchk hrest
    cases err with
    | some e =>
      simp only [feedAll, hr]
      exact hchk
    | none =>
      obtain ⟨hp2, hs2⟩ := hrest rfl
      simp only [feedAll, hr]
      rw [checkEvents_append, hchk, ← hp2, ih a hs2]
      rfl

/-- C10: for every sequence of `feed` calls on a single decoder starting from
construction, the event trace is consistent: the payload delivered by each
`Packet` event equals the concatenation, in emission order, of the data
carried by all `Read` events emitted since the most recent `Packet` or
`Reset` event (or since construction), and the size reported with the
`Packet` event equals the length of that payload.  `checkEvents` walks the
trace checking exactly this. -/
theorem c10_packet_is_accumulated_reads (chunks : List (List Nat)) :
    checkEvents [] (feedAll DirectStream.fresh chunks).2.1 = true :=
  feedAll_checkEvents chunks DirectStream.fresh rfl

end NodeSubdata2
